import Mathlib

/-!
Verification of the Filestorebot link-encoding and delivery pipeline.

Shallow embedding of the Python sources:
  - helper_func.py   : HelperFunctions.encode_string / decode_string (URL-safe
                       base64 with stripped padding), get_messages_batch,
                       schedule_auto_delete
  - plugins/link_generator.py : genlink / batch (token payload construction)
  - plugins/start.py : start_command (token resolution, caption synthesis,
                       auto-delete phase)
  - plugins/broadcast.py : BroadcastManager.send_broadcast_chunk,
                       broadcast_message
  - database/database.py : DatabaseManager method surface, get_del_timer

Python strings are modelled as List Char; Python arbitrary-precision
nonnegative integers as Nat.  Python true division int(x / m) on values that
the encoder produced (exact multiples of m) is modelled as Nat division,
which agrees with the exact rational value there.
-/

namespace Filestorebot

/-! ### URL-safe base64 alphabet (base64.urlsafe_b64encode / urlsafe_b64decode) -/

/-- Character of the URL-safe base64 alphabet at index n (A-Z, a-z, 0-9, -, _). -/
def b64char (n : Nat) : Char :=
  if n < 26 then Char.ofNat (65 + n)
  else if n < 52 then Char.ofNat (97 + (n - 26))
  else if n < 62 then Char.ofNat (48 + (n - 52))
  else if n = 62 then '-'
  else '_'

/-- Index of a character in the base64 alphabet as urlsafe_b64decode sees it:
it translates - to + and _ to / and then decodes with the standard alphabet,
so both the URL-safe pair and the standard pair + and / are accepted.
Returns none for every other character. -/
def b64index (c : Char) : Option Nat :=
  if 65 ≤ c.toNat ∧ c.toNat ≤ 90 then some (c.toNat - 65)
  else if 97 ≤ c.toNat ∧ c.toNat ≤ 122 then some (c.toNat - 97 + 26)
  else if 48 ≤ c.toNat ∧ c.toNat ≤ 57 then some (c.toNat - 48 + 52)
  else if c = '-' then some 62
  else if c = '_' then some 63
  else if c = '+' then some 62
  else if c = '/' then some 63
  else none

/-- base64.urlsafe_b64encode on a byte list, producing the padded character
form (groups of 3 bytes into 4 characters, trailing groups padded with =). -/
def b64encode : List Nat → List Char
  | b1 :: b2 :: b3 :: rest =>
      b64char (b1 / 4) :: b64char (b1 % 4 * 16 + b2 / 16) ::
      b64char (b2 % 16 * 4 + b3 / 64) :: b64char (b3 % 64) :: b64encode rest
  | [b1, b2] =>
      [b64char (b1 / 4), b64char (b1 % 4 * 16 + b2 / 16), b64char (b2 % 16 * 4), '=']
  | [b1] =>
      [b64char (b1 / 4), b64char (b1 % 4 * 16), '=', '=']
  | [] => []

/-- binascii.a2b_base64 in non-strict mode, as base64.urlsafe_b64decode
invokes it: characters outside the alphabet are skipped; a data character
resets the padding count and emits output bytes eagerly (one byte after the
second character of a quad, one more after each of the third and fourth); a
= with fewer than two data characters in the current quad is ignored; a =
that completes a quad of at least two data characters (two pads after two
characters, one pad after three) ends the decode, discarding the unread
rest; at end of input a quad position of 1 is the invalid-length error and
a quad position of 2 or 3 is the incorrect-padding error.  Arguments:
input, quad position (0-3), pending bits, pad count of the current quad. -/
def a2bAux : List Char → Nat → Nat → Nat → Option (List Nat)
  | [], qp, _, _ => if qp = 0 then some [] else none
  | c :: rest, qp, left, pads =>
    if c = '=' then
      if 2 ≤ qp then
        if 4 ≤ qp + (pads + 1) then some []
        else a2bAux rest qp left (pads + 1)
      else a2bAux rest qp left pads
    else
      match b64index c with
      | none => a2bAux rest qp left pads
      | some s =>
        match qp with
        | 0 => a2bAux rest 1 s 0
        | 1 =>
          match a2bAux rest 2 (s % 16) 0 with
          | some out => some ((left * 4 + s / 16) :: out)
          | none => none
        | 2 =>
          match a2bAux rest 3 (s % 4) 0 with
          | some out => some ((left * 16 + s / 4) :: out)
          | none => none
        | _ =>
          match a2bAux rest 0 0 0 with
          | some out => some ((left * 64 + s) :: out)
          | none => none

/-- base64.urlsafe_b64decode on a character list (validate not set, so
non-alphabet characters are discarded rather than rejected). -/
def a2b_base64 (l : List Char) : Option (List Nat) :=
  a2bAux l 0 0 0

/-- Python str.strip of the = character: removes leading and trailing = runs. -/
def stripEq (l : List Char) : List Char :=
  ((l.dropWhile (· = '=')).reverse.dropWhile (· = '=')).reverse

/-- HelperFunctions.encode_string: ascii-encode, URL-safe base64, strip =.
Fails (raises, modelled as none) when the input is not ASCII. -/
def encode_string (s : List Char) : Option (List Char) :=
  if s.all (fun c => c.toNat < 128) then
    some (stripEq (b64encode (s.map Char.toNat)))
  else none

/-- HelperFunctions.decode_string: strip =, restore padding of length
(-len mod 4) computed on the stripped string, ascii-encode (failing on any
non-ASCII character), then base64.urlsafe_b64decode and ascii-decode of the
resulting bytes.  Any raised error is modelled as none. -/
def decode_string (t : List Char) : Option (List Char) :=
  let t1 := stripEq t
  if t1.all (fun c => c.toNat < 128) then
    let padded := t1 ++ List.replicate ((4 - t1.length % 4) % 4) '='
    match a2b_base64 padded with
    | some bs => if bs.all (· < 128) then some (bs.map Char.ofNat) else none
    | none => none
  else none

/-! ### Decimal printing and parsing (Python str and int on nonnegative ints) -/

/-- Structural worker for toDecimal; the fuel is any bound above n, so the
zero-fuel branch is never taken on the arguments it is used with. -/
def toDecimalAux : Nat → Nat → List Char
  | 0, _ => []
  | fuel + 1, n =>
    if n < 10 then [Char.ofNat (48 + n)]
    else toDecimalAux fuel (n / 10) ++ [Char.ofNat (48 + n % 10)]

/-- Python str on a nonnegative int: decimal digit characters, most
significant first. -/
def toDecimal (n : Nat) : List Char := toDecimalAux (n + 1) n

/-- Decimal digit test. -/
def isDigit (c : Char) : Bool := 48 ≤ c.toNat && c.toNat ≤ 57

/-- Accumulating decimal parser. -/
def parseDecimalAux (acc : Nat) : List Char → Option Nat
  | [] => some acc
  | c :: rest =>
      if isDigit c then parseDecimalAux (acc * 10 + (c.toNat - 48)) rest else none

/-- Python int on a field of the token payload: fails (raises ValueError) on
the empty string or on any non-digit character, otherwise the decimal value.
(Python int also tolerates a sign, surrounding whitespace and single
underscores between digits; none of those occur in the digit fields the
encoder of this bot produces.) -/
def parseDecimal? : List Char → Option Nat
  | [] => none
  | c :: rest => parseDecimalAux 0 (c :: rest)

/-! ### Python str.split on the single-character separator - -/

/-- Python s.split of the - character, keeping empty fields. -/
def splitDash : List Char → List (List Char)
  | [] => [[]]
  | c :: rest =>
    if c = '-' then [] :: splitDash rest
    else
      match splitDash rest with
      | f :: r => (c :: f) :: r
      | [] => [[c]]

/-! ### Locators and link tokens (plugins/link_generator.py, plugins/start.py) -/

/-- A logical content locator: one archived message id, or a contiguous
range of ids. -/
inductive Locator where
  | single (id : Nat)
  | range (a b : Nat)
deriving DecidableEq

/-- Token payload built by genlink and batch in plugins/link_generator.py:
get-{id*m} for a single id, get-{a*m}-{b*m} for a range, where m is the
ChannelMagnitude abs(client.db_channel.id). -/
def linkPayload (m : Nat) : Locator → List Char
  | .single i => ['g', 'e', 't', '-'] ++ toDecimal (i * m)
  | .range a b => ['g', 'e', 't', '-'] ++ toDecimal (a * m) ++ '-' :: toDecimal (b * m)

/-- Structural floor-log2: log2Aux fuel n is floor(log2 n) whenever
fuel ≥ n (0 for n = 0), matching math.floor(log2) on positive ints. -/
def log2Aux : Nat → Nat → Nat
  | 0, _ => 0
  | fuel + 1, n => if 2 ≤ n then log2Aux fuel (n / 2) + 1 else 0

/-- Floor of log2 n (0 for n ≤ 1). -/
def natLog2 (n : Nat) : Nat := log2Aux n n

/-- Structural ceiling-log2: the smallest k with c ≤ 2 ^ k, whenever
fuel ≥ c. -/
def clog2Aux : Nat → Nat → Nat
  | 0, _ => 0
  | fuel + 1, c => if c ≤ 1 then 0 else clog2Aux fuel ((c + 1) / 2) + 1

/-- Smallest k with c ≤ 2 ^ k. -/
def clog2 (c : Nat) : Nat := clog2Aux c c

/-- Round-half-even of a quotient: q is the floor, r the remainder against
the divisor d; ties go to the even candidate. -/
def roundHalfEven (q r d : Nat) : Nat :=
  if 2 * r < d then q
  else if d < 2 * r then q + 1
  else if q % 2 = 0 then q else q + 1

/-- Python int(x / m) for nonnegative ints x and arbitrary-precision m:
CPython true division of two ints (long_true_divide) produces the
correctly-rounded (round-half-even) IEEE-754 double of the exact rational
x / m, raising OverflowError when that rounding reaches 2 ^ 1024, and
ZeroDivisionError when m = 0; int() then truncates the double toward zero.
The double is s * 2 ^ (E - 52) where E = floor(log2(x / m)) and s is the
53-bit significand obtained by half-even rounding of x / m scaled into
[2 ^ 52, 2 ^ 53).  Subnormal clamping below 2 ^ -1022 cannot change the
truncated integer (both values truncate to 0), so it is not modelled.
none stands for a raised error (OverflowError or ZeroDivisionError). -/
def pyTrueDivInt (x m : Nat) : Option Nat :=
  if m = 0 then none
  else if x = 0 then some 0
  else if m ≤ x then
    let E := natLog2 (x / m)
    if 52 ≤ E then
      let D := m * 2 ^ (E - 52)
      let s := roundHalfEven (x / D) (x % D) D
      let v := s * 2 ^ (E - 52)
      if 2 ^ 1024 ≤ v then none else some v
    else
      let N := x * 2 ^ (52 - E)
      let s := roundHalfEven (N / m) (N % m) m
      some (s / 2 ^ (52 - E))
  else
    let k := clog2 ((m + x - 1) / x)
    let N := x * 2 ^ (52 + k)
    let s := roundHalfEven (N / m) (N % m) m
    some (s / 2 ^ (52 + k))

/-- Outcome of the token-resolution stage of start_command
(plugins/start.py lines 37-56). -/
inductive StartOutcome where
  | errorReply            -- outer except: replies with a generic error message
  | silentReturn          -- inner except: logs and returns, no ids, no reply
  | deliver (ids : List Nat)  -- flow continues into fetch and delivery with ids
deriving DecidableEq

/-- Token resolution in start_command: decode the token, split the payload on
the - character, and turn 3 fields into an id range (descending when
start > end) or 2 fields into a single id, where each scaled field x becomes
int(int(x) / m) for the ChannelMagnitude m: float true division followed by
truncation, modelled faithfully by pyTrueDivInt.  A payload whose field
count is neither 2 nor 3 leaves ids empty and the flow continues with no
content; a non-numeric field, an overflowing division or a zero magnitude
is caught by the inner handler and the command returns silently; a failing
base64 transform propagates to the outer handler which replies with an
error message. -/
def start_link_resolution (m : Nat) (token : List Char) : StartOutcome :=
  match decode_string token with
  | none => .errorReply
  | some s =>
    let argument := splitDash s
    if argument.length = 3 then
      match parseDecimal? (argument.getD 1 []), parseDecimal? (argument.getD 2 []) with
      | some x, some y =>
        match pyTrueDivInt x m, pyTrueDivInt y m with
        | some s0, some e0 =>
          .deliver (if s0 ≤ e0 then List.range' s0 (e0 + 1 - s0)
                    else (List.range' e0 (s0 + 1 - e0)).reverse)
        | _, _ => .silentReturn
      | _, _ => .silentReturn
    else if argument.length = 2 then
      match parseDecimal? (argument.getD 1 []) with
      | some x =>
        match pyTrueDivInt x m with
        | some v => .deliver [v]
        | none => .silentReturn
      | none => .silentReturn
    else .deliver []

/-! ### Retriever (helper_func.py: HelperFunctions.get_messages_batch) -/

/-- Result of one client.get_messages call against the content store. -/
inductive FetchResult where
  | ok (msgs : List Nat)
  | floodWait (w : Nat)
  | err
deriving DecidableEq

/-- Trace of externally visible retriever actions: the id batch passed to
each store call in order, and the rate-limit sleeps performed. -/
structure FetchTrace where
  calls : List (List Nat)
  sleeps : List Nat
deriving DecidableEq

/-- Structural worker for chunkList; fuel is an upper bound on the list
length, so the zero-fuel branch is never taken on the lists it is used
with. -/
def chunkListAux (fuel n : Nat) (l : List α) : List (List α) :=
  match fuel, l with
  | 0, _ => []
  | _ + 1, [] => []
  | fuel + 1, x :: xs => (x :: xs.take (n - 1)) :: chunkListAux fuel n (xs.drop (n - 1))

/-- Python list slicing users[i:i+n] for i in steps of n: consecutive
chunks of size n. -/
def chunkList (n : Nat) (l : List α) : List (List α) := chunkListAux l.length n l

/-- The batch loop of get_messages_batch.  The store is scripted by global
call number: store k b is what the k-th get_messages call returns when
passed batch b.  On floodWait w the loop sleeps w seconds and retries the
same batch exactly once inside a nested try; any failure of that retry (or
any non-rate-limit error on the first call) drops the batch and the loop
continues with the next batch. -/
def gmbLoop (store : Nat → List Nat → FetchResult) :
    List (List Nat) → Nat → List Nat × FetchTrace
  | [], _ => ([], ⟨[], []⟩)
  | batch :: rest, k =>
    match store k batch with
    | .ok msgs =>
        let (ms, tr) := gmbLoop store rest (k + 1)
        (msgs ++ ms, ⟨batch :: tr.calls, tr.sleeps⟩)
    | .floodWait w =>
        match store (k + 1) batch with
        | .ok msgs =>
            let (ms, tr) := gmbLoop store rest (k + 2)
            (msgs ++ ms, ⟨batch :: batch :: tr.calls, w :: tr.sleeps⟩)
        | _ =>
            let (ms, tr) := gmbLoop store rest (k + 2)
            (ms, ⟨batch :: batch :: tr.calls, w :: tr.sleeps⟩)
    | .err =>
        let (ms, tr) := gmbLoop store rest (k + 1)
        (ms, ⟨batch :: tr.calls, tr.sleeps⟩)

/-- HelperFunctions.get_messages_batch: early return on an empty id list,
otherwise the batch loop over chunks of 100 ids. -/
def get_messages_batch (store : Nat → List Nat → FetchResult) (ids : List Nat) :
    List Nat × FetchTrace :=
  if ids = [] then ([], ⟨[], []⟩)
  else gmbLoop store (chunkList 100 ids) 0

/-- Per-batch resolution, written independently of the loop: one call, on a
rate limit one sleep and exactly one retry, a failed retry or other error
contributing no messages.  Returns the messages, the calls issued, the
sleeps, and how many store calls were consumed. -/
def fetchBatchSpec (store : Nat → List Nat → FetchResult) (k : Nat) (batch : List Nat) :
    List Nat × List (List Nat) × List Nat × Nat :=
  match store k batch with
  | .ok msgs => (msgs, [batch], [], 1)
  | .floodWait w =>
    match store (k + 1) batch with
    | .ok msgs => (msgs, [batch, batch], [w], 2)
    | _ => ([], [batch, batch], [w], 2)
  | .err => ([], [batch], [], 1)

/-- Composition of independent per-batch resolutions, threading the call
counter; no batch failure influences a sibling batch. -/
def fetchAllSpec (store : Nat → List Nat → FetchResult) :
    List (List Nat) → Nat → List Nat × FetchTrace
  | [], _ => ([], ⟨[], []⟩)
  | b :: rest, k =>
    let (ms, calls, sleeps, used) := fetchBatchSpec store k b
    let (ms2, tr) := fetchAllSpec store rest (k + used)
    (ms ++ ms2, ⟨calls ++ tr.calls, sleeps ++ tr.sleeps⟩)

/-! ### ExpiryScheduler (helper_func.py: HelperFunctions.schedule_auto_delete) -/

/-- Trace of an auto-delete run: sleeps performed, message ids whose delete
was attempted (in order), and the deleted counts reported by notification
edits. -/
structure AutoDeleteTrace where
  sleeps : List Nat
  deleteAttempts : List Nat
  editReports : List Nat
deriving DecidableEq

/-- The deletion loop: non-null messages get one delete attempt each;
deleteOk says whether that attempt succeeds; a failure is logged and the
loop continues.  Returns the success count and the attempted ids. -/
def autoDeleteLoop (deleteOk : Nat → Bool) : List (Option Nat) → Nat × List Nat
  | [] => (0, [])
  | none :: rest => autoDeleteLoop deleteOk rest
  | some msg :: rest =>
    let (cnt, att) := autoDeleteLoop deleteOk rest
    (if deleteOk msg then cnt + 1 else cnt, msg :: att)

/-- HelperFunctions.schedule_auto_delete with the three-argument call shape
used by start_command (reload_url absent): sleep delete_after seconds,
attempt deletion of every non-null message counting successes, then edit the
notification message exactly once reporting the deleted count. -/
def schedule_auto_delete (messages : List (Option Nat)) (delete_after : Nat)
    (deleteOk : Nat → Bool) : AutoDeleteTrace :=
  let (deletedCount, attempts) := autoDeleteLoop deleteOk messages
  ⟨[delete_after], attempts, [deletedCount]⟩

/-! ### DeliveryService caption synthesis (plugins/start.py lines 69-82) -/

/-- A content item as delivered: optional caption (its html form) and, when
the item is a labeled file, the file name of its document. -/
structure Content where
  caption : Option String
  document : Option String
deriving DecidableEq

/-- Python truthiness of the CUSTOM_CAPTION configuration value: configured
means present and non-empty. -/
def captionConfigured : Option String → Bool
  | none => false
  | some t => !t.isEmpty

/-- One copy call: the caption passed to msg.copy and the protect_content
flag.  fmt models CUSTOM_CAPTION.format with keyword fields previouscaption
and filename: fmt template previouscaption filename. -/
structure CopyCall where
  caption : String
  protect : Bool
deriving DecidableEq

/-- Caption passed to msg.copy in start_command: the template interpolation
when a caption template is configured and the item is a document, otherwise
the original caption html (empty when the caption is absent or falsy). -/
def deliveredCaption (tmpl : Option String) (fmt : String → String → String → String)
    (msg : Content) : String :=
  if captionConfigured tmpl && msg.document.isSome then
    fmt (tmpl.getD "") (match msg.caption with | none => "" | some c => c)
      (msg.document.getD "")
  else
    match msg.caption with | none => "" | some c => c

/-- The delivery loop of start_command: one copy call per resolved content
item, in order, each carrying its synthesized caption and the configured
protect_content flag. -/
def deliverAll (tmpl : Option String) (fmt : String → String → String → String)
    (protectFlag : Bool) (msgs : List Content) : List CopyCall :=
  msgs.map (fun m => ⟨deliveredCaption tmpl fmt m, protectFlag⟩)

/-! ### BroadcastEngine (plugins/broadcast.py) -/

/-- Exceptions distinguished by send_broadcast_chunk. -/
inductive Exn where
  | userIsBlocked
  | inputUserDeactivated
  | floodWait (w : Nat)
  | other
deriving DecidableEq

/-- Result of one platform call (message.copy, pin_chat_message, delete). -/
inductive CallResult where
  | ok
  | exn (e : Exn)
deriving DecidableEq

/-- Broadcast mode: the broadcast_type argument of send_broadcast_chunk. -/
inductive BType where
  | normal
  | pin
  | autoDelete (duration : Nat)
deriving DecidableEq

/-- Per-recipient outcome recorded by the chunk sender counters. -/
inductive Outcome where
  | delivered
  | blocked
  | deactivated
  | failed
deriving DecidableEq

/-- The main try block for one recipient.  The recipient script s gives the
result of this recipient's n-th platform call: normal issues one copy call;
pin issues copy then pin; auto_delete issues copy, sleeps, then delete.
Returns the first exception raised (none when the body completes) and the
index of the next unused call. -/
def tryMain (t : BType) (s : Nat → CallResult) : Option Exn × Nat :=
  match t with
  | .normal =>
    match s 0 with
    | .ok => (none, 1)
    | .exn e => (some e, 1)
  | .pin =>
    match s 0 with
    | .ok =>
      match s 1 with
      | .ok => (none, 2)
      | .exn e => (some e, 2)
    | .exn e => (some e, 1)
  | .autoDelete _ =>
    match s 0 with
    | .ok =>
      match s 1 with
      | .ok => (none, 2)
      | .exn e => (some e, 2)
    | .exn e => (some e, 1)

/-- The nested retry block inside the FloodWait handler, starting at call
index i: it re-sends for normal (copy) and pin (copy then pin) only; for
auto_delete neither branch applies, so no call is made and the block
completes.  True when the block completes without an exception. -/
def retryAfterFlood (t : BType) (s : Nat → CallResult) (i : Nat) : Bool :=
  match t with
  | .normal =>
    match s i with
    | .ok => true
    | .exn _ => false
  | .pin =>
    match s i with
    | .ok =>
      match s (i + 1) with
      | .ok => true
      | .exn _ => false
    | .exn _ => false
  | .autoDelete _ => true

/-- Classification of one recipient by the except chain of
send_broadcast_chunk: UserIsBlocked removes the recipient and counts
blocked; InputUserDeactivated removes and counts deleted; FloodWait sleeps
and runs the retry block, counting success when it completes and failed
otherwise; any other exception counts failed.  The boolean is true when
db.del_user was called for this recipient. -/
def processUser (t : BType) (s : Nat → CallResult) : Outcome × Bool :=
  match tryMain t s with
  | (none, _) => (.delivered, false)
  | (some .userIsBlocked, _) => (.blocked, true)
  | (some .inputUserDeactivated, _) => (.deactivated, true)
  | (some (.floodWait _), i) =>
      if retryAfterFlood t s i then (.delivered, false) else (.failed, false)
  | (some .other, _) => (.failed, false)

/-- What the specification requires of the FloodWait handler: retry the same
attempt exactly once (re-running the full attempt body on fresh calls) and
record the recipient according to that retry outcome.  Identical to
processUser except in the rate-limit branch. -/
def processUserSpec (t : BType) (s : Nat → CallResult) : Outcome × Bool :=
  match tryMain t s with
  | (none, _) => (.delivered, false)
  | (some .userIsBlocked, _) => (.blocked, true)
  | (some .inputUserDeactivated, _) => (.deactivated, true)
  | (some (.floodWait _), i) =>
      match tryMain t (fun n => s (i + n)) with
      | (none, _) => (.delivered, false)
      | (some _, _) => (.failed, false)
  | (some .other, _) => (.failed, false)

/-- The four counters returned by send_broadcast_chunk. -/
structure ChunkCounts where
  success : Nat
  blocked : Nat
  deleted : Nat
  failed : Nat
deriving DecidableEq

/-- BroadcastManager.send_broadcast_chunk over a chunk of recipients, each a
user id paired with its call script: returns the four counters and the list
of user ids removed from the user directory, in processing order. -/
def send_broadcast_chunk (t : BType) :
    List (Nat × (Nat → CallResult)) → ChunkCounts × List Nat
  | [] => (⟨0, 0, 0, 0⟩, [])
  | (uid, s) :: rest =>
    let r := send_broadcast_chunk t rest
    match processUser t s with
    | (.delivered, _) =>
        (⟨r.1.success + 1, r.1.blocked, r.1.deleted, r.1.failed⟩, r.2)
    | (.blocked, _) =>
        (⟨r.1.success, r.1.blocked + 1, r.1.deleted, r.1.failed⟩, uid :: r.2)
    | (.deactivated, _) =>
        (⟨r.1.success, r.1.blocked, r.1.deleted + 1, r.1.failed⟩, uid :: r.2)
    | (.failed, _) =>
        (⟨r.1.success, r.1.blocked, r.1.deleted, r.1.failed + 1⟩, r.2)

/-- Result of a broadcast run: the distinct empty-audience reply, or the
final report with total, per-outcome counts and the success rate
(total_success / total_users) * 100 as an exact rational. -/
inductive BroadcastResult where
  | noUsers
  | report (total success blocked deleted failed : Nat) (successRate : ℚ)
deriving DecidableEq

/-- One iteration of the chunk loop of broadcast_message: run the chunk in
plain mode and add its four counters to the running totals. -/
def broadcastStep (a : ChunkCounts) (chunk : List (Nat × (Nat → CallResult))) :
    ChunkCounts :=
  let c := (send_broadcast_chunk .normal chunk).1
  ⟨a.success + c.success, a.blocked + c.blocked, a.deleted + c.deleted,
   a.failed + c.failed⟩

/-- broadcast_message (plugins/broadcast.py): abort with the empty-audience
reply when the user base is empty, otherwise process chunks of 100
recipients in plain mode, accumulate the counters, and render the final
report including the success percentage. -/
def broadcast_message (users : List (Nat × (Nat → CallResult))) : BroadcastResult :=
  let total := users.length
  if total = 0 then .noUsers
  else
    let acc := (chunkList 100 users).foldl broadcastStep ⟨0, 0, 0, 0⟩
    .report total acc.success acc.blocked acc.deleted acc.failed
      ((acc.success : ℚ) / (total : ℚ) * 100)

/-! ### DatabaseManager method surface (database/database.py) and the
auto-delete phase of start_command -/

/-- The methods defined on DatabaseManager in database/database.py. -/
def databaseManagerMethods : List String :=
  ["health_check", "present_user", "add_user", "del_user", "full_userbase",
   "get_user_count", "admin_exist", "add_admin", "del_admin", "get_all_admins",
   "ban_user_exist", "add_ban_user", "del_ban_user", "get_ban_users",
   "channel_exist", "add_channel", "rem_channel", "show_channels",
   "get_channel_mode", "set_channel_mode", "set_del_timer", "get_del_timer",
   "req_user", "del_req_user", "req_user_exist", "reqChannel_exist",
   "has_pending_request", "get_all_channels", "is_admin", "cleanup_old_data",
   "get_stats"]

/-- DatabaseManager.get_del_timer: the stored auto-delete timer value, or
the default of 600 seconds when no value was ever stored. -/
def get_del_timer (stored : Option Nat) : Nat := stored.getD 600

/-- Result of the auto-delete phase of start_command after delivery. -/
inductive SchedulePhaseResult where
  | scheduled (delay : Nat)   -- auto_delete_time > 0: deletion task created
  | noSchedule                -- auto_delete_time is not positive
  | errorReply                -- an exception reached the outer handler
deriving DecidableEq

/-- The auto-delete phase of start_command (plugins/start.py lines 87-98):
it reads the timer as db.get_auto_delete_time().  Attribute lookup on the
database object succeeds only for methods DatabaseManager defines; a missing
attribute raises AttributeError, which the outer handler turns into the
generic error reply.  When the lookup succeeds the freshly read value is
used and a deletion task is created only when it is positive. -/
def start_autodelete_phase (methods : List String) (stored : Option Nat) :
    SchedulePhaseResult :=
  if "get_auto_delete_time" ∈ methods then
    let t := get_del_timer stored
    if 0 < t then .scheduled t else .noSchedule
  else .errorReply

/-! ### Lemmas about the base64 codec -/

theorem b64index_b64char : ∀ n, n < 64 → b64index (b64char n) = some n := by decide

theorem b64char_ne : ∀ n, n < 64 → b64char n ≠ '=' := by decide

theorem dropWhile_replicate_eq (k : Nat) (l : List Char) :
    List.dropWhile (· = '=') (List.replicate k '=' ++ l) = List.dropWhile (· = '=') l := by
  induction k with
  | zero => simp
  | succ k ih =>
    rw [List.replicate_succ, List.cons_append, List.dropWhile_cons]
    simp only [decide_eq_true_eq, if_pos rfl]
    exact ih

theorem dropWhile_eq_self_of_head_ne {l : List Char} (h : '=' ∉ l) :
    List.dropWhile (· = '=') l = l := by
  cases l with
  | nil => rfl
  | cons a as =>
    have ha : ¬(a = '=') := fun e => h (e ▸ List.mem_cons_self a as)
    simp [List.dropWhile_cons, ha]

theorem stripEq_append_replicate (m : List Char) (k : Nat) (h : '=' ∉ m) :
    stripEq (m ++ List.replicate k '=') = m := by
  unfold stripEq
  cases m with
  | nil =>
    have h1 : List.dropWhile (· = '=') (List.replicate k '=') = [] := by
      have h2 := dropWhile_replicate_eq k []
      rw [List.append_nil] at h2
      simp [h2]
    simp [h1]
  | cons a as =>
    have ha : ¬(a = '=') := fun e => h (e ▸ List.mem_cons_self a as)
    have h1 : List.dropWhile (· = '=') ((a :: as) ++ List.replicate k '=') =
        (a :: as) ++ List.replicate k '=' := by
      simp [List.dropWhile_cons, ha]
    have hrev : '=' ∉ (a :: as).reverse := fun hc => h (List.mem_reverse.mp hc)
    rw [h1, List.reverse_append, List.reverse_replicate, dropWhile_replicate_eq,
      dropWhile_eq_self_of_head_ne hrev, List.reverse_reverse]

theorem b64char_ascii : ∀ n, n < 64 → (b64char n).toNat < 128 := by decide

theorem b64_structure (bs : List Nat) (h : ∀ b ∈ bs, b < 256) :
    ∃ m k, b64encode bs = m ++ List.replicate k '=' ∧ '=' ∉ m ∧
      (∀ c ∈ m, c.toNat < 128) ∧ k ≤ 2 ∧
      (m.length + k) % 4 = 0 ∧ a2bAux (m ++ List.replicate k '=') 0 0 0 = some bs := by
  induction bs using b64encode.induct with
  | case4 =>
    exact ⟨[], 0, by simp [b64encode], by simp, by simp, by omega, by simp, rfl⟩
  | case3 b1 =>
    have hb1 : b1 < 256 := h b1 (by simp)
    have hs1 : b1 / 4 < 64 := by omega
    have hs2 : b1 % 4 * 16 < 64 := by omega
    refine ⟨[b64char (b1 / 4), b64char (b1 % 4 * 16)], 2, by simp [b64encode], ?_, ?_,
      by omega, by simp, ?_⟩
    · intro hc
      simp only [List.mem_cons, List.not_mem_nil, or_false] at hc
      rcases hc with hc | hc
      · exact b64char_ne _ hs1 hc.symm
      · exact b64char_ne _ hs2 hc.symm
    · intro c hc
      simp only [List.mem_cons, List.not_mem_nil, or_false] at hc
      rcases hc with rfl | rfl
      · exact b64char_ascii _ hs1
      · exact b64char_ascii _ hs2
    · show a2bAux [b64char (b1 / 4), b64char (b1 % 4 * 16), '=', '='] 0 0 0 = some [b1]
      have hne1 : ¬(b64char (b1 / 4) = '=') := b64char_ne _ hs1
      have hne2 : ¬(b64char (b1 % 4 * 16) = '=') := b64char_ne _ hs2
      simp only [a2bAux, hne1, hne2, b64index_b64char _ hs1, b64index_b64char _ hs2]
      simp
      omega
  | case2 b1 b2 =>
    have hb1 : b1 < 256 := h b1 (by simp)
    have hb2 : b2 < 256 := h b2 (by simp)
    have hs1 : b1 / 4 < 64 := by omega
    have hs2 : b1 % 4 * 16 + b2 / 16 < 64 := by omega
    have hs3 : b2 % 16 * 4 < 64 := by omega
    refine ⟨[b64char (b1 / 4), b64char (b1 % 4 * 16 + b2 / 16), b64char (b2 % 16 * 4)], 1,
      by simp [b64encode], ?_, ?_, by omega, by simp, ?_⟩
    · intro hc
      simp only [List.mem_cons, List.not_mem_nil, or_false] at hc
      rcases hc with hc | hc | hc
      · exact b64char_ne _ hs1 hc.symm
      · exact b64char_ne _ hs2 hc.symm
      · exact b64char_ne _ hs3 hc.symm
    · intro c hc
      simp only [List.mem_cons, List.not_mem_nil, or_false] at hc
      rcases hc with rfl | rfl | rfl
      · exact b64char_ascii _ hs1
      · exact b64char_ascii _ hs2
      · exact b64char_ascii _ hs3
    · show a2bAux [b64char (b1 / 4), b64char (b1 % 4 * 16 + b2 / 16),
        b64char (b2 % 16 * 4), '='] 0 0 0 = some [b1, b2]
      have hne1 : ¬(b64char (b1 / 4) = '=') := b64char_ne _ hs1
      have hne2 : ¬(b64char (b1 % 4 * 16 + b2 / 16) = '=') := b64char_ne _ hs2
      have hne3 : ¬(b64char (b2 % 16 * 4) = '=') := b64char_ne _ hs3
      simp only [a2bAux, hne1, hne2, hne3, b64index_b64char _ hs1,
        b64index_b64char _ hs2, b64index_b64char _ hs3]
      simp
      omega
  | case1 b1 b2 b3 rest ih =>
    have hb1 : b1 < 256 := h b1 (by simp)
    have hb2 : b2 < 256 := h b2 (by simp)
    have hb3 : b3 < 256 := h b3 (by simp)
    have hrest : ∀ b ∈ rest, b < 256 := fun b hb => h b (by simp [hb])
    obtain ⟨m, k, he, hm, hmascii, hk, hlen, hdec⟩ := ih hrest
    have hs1 : b1 / 4 < 64 := by omega
    have hs2 : b1 % 4 * 16 + b2 / 16 < 64 := by omega
    have hs3 : b2 % 16 * 4 + b3 / 64 < 64 := by omega
    have hs4 : b3 % 64 < 64 := by omega
    refine ⟨b64char (b1 / 4) :: b64char (b1 % 4 * 16 + b2 / 16) ::
      b64char (b2 % 16 * 4 + b3 / 64) :: b64char (b3 % 64) :: m, k, ?_, ?_, ?_, hk, ?_, ?_⟩
    · simp [b64encode, he]
    · intro hc
      simp only [List.mem_cons] at hc
      rcases hc with hc | hc | hc | hc | hc
      · exact b64char_ne _ hs1 hc.symm
      · exact b64char_ne _ hs2 hc.symm
      · exact b64char_ne _ hs3 hc.symm
      · exact b64char_ne _ hs4 hc.symm
      · exact hm hc
    · intro c hc
      simp only [List.mem_cons] at hc
      rcases hc with rfl | rfl | rfl | rfl | hc
      · exact b64char_ascii _ hs1
      · exact b64char_ascii _ hs2
      · exact b64char_ascii _ hs3
      · exact b64char_ascii _ hs4
      · exact hmascii c hc
    · simp only [List.length_cons]
      omega
    · show a2bAux (b64char (b1 / 4) :: b64char (b1 % 4 * 16 + b2 / 16) ::
        b64char (b2 % 16 * 4 + b3 / 64) :: b64char (b3 % 64) ::
        (m ++ List.replicate k '=')) 0 0 0 = some (b1 :: b2 :: b3 :: rest)
      have hne1 : ¬(b64char (b1 / 4) = '=') := b64char_ne _ hs1
      have hne2 : ¬(b64char (b1 % 4 * 16 + b2 / 16) = '=') := b64char_ne _ hs2
      have hne3 : ¬(b64char (b2 % 16 * 4 + b3 / 64) = '=') := b64char_ne _ hs3
      have hne4 : ¬(b64char (b3 % 64) = '=') := b64char_ne _ hs4
      simp only [a2bAux, hne1, hne2, hne3, hne4, b64index_b64char _ hs1,
        b64index_b64char _ hs2, b64index_b64char _ hs3, b64index_b64char _ hs4]
      simp [hdec]
      omega

theorem decode_encode_ascii (s : List Char) (h : ∀ c ∈ s, c.toNat < 128) :
    ∃ t, encode_string s = some t ∧ decode_string t = some s := by
  have hbytes : ∀ b ∈ s.map Char.toNat, b < 256 := by
    intro b hb
    rcases List.mem_map.mp hb with ⟨c, hc, rfl⟩
    exact lt_trans (h c hc) (by omega)
  obtain ⟨m, k, he, hm, hmascii, hk, hlen, hdec⟩ := b64_structure (s.map Char.toNat) hbytes
  have hall : s.all (fun c => decide (c.toNat < 128)) = true := by
    rw [List.all_eq_true]
    intro c hc
    exact decide_eq_true (h c hc)
  refine ⟨stripEq (b64encode (s.map Char.toNat)), ?_, ?_⟩
  · simp [encode_string, hall]
  · rw [he, stripEq_append_replicate m k hm]
    have hsm : stripEq m = m := by simpa using stripEq_append_replicate m 0 hm
    have hpad : (4 - m.length % 4) % 4 = k := by omega
    have hmall : m.all (fun c => decide (c.toNat < 128)) = true := by
      rw [List.all_eq_true]
      intro c hc
      exact decide_eq_true (hmascii c hc)
    have hdall : (s.map Char.toNat).all (fun b => decide (b < 128)) = true := by
      rw [List.all_eq_true]
      intro b hb
      rcases List.mem_map.mp hb with ⟨c, hc, rfl⟩
      exact decide_eq_true (h c hc)
    simp only [decode_string, a2b_base64, hsm, hmall, hpad, hdec, hdall, if_true]
    rw [List.map_map]
    congr 1
    have : ∀ c ∈ s, (Char.ofNat ∘ Char.toNat) c = id c := by
      intro c _
      simp [Char.ofNat_toNat]
    rw [List.map_congr_left this, List.map_id]

/-! ### Lemmas about decimal printing and parsing -/

theorem digit_toNat : ∀ d, d < 10 → (Char.ofNat (48 + d)).toNat = 48 + d := by decide

theorem toDecimalAux_digits :
    ∀ fuel n, n < fuel → ∀ c ∈ toDecimalAux fuel n, 48 ≤ c.toNat ∧ c.toNat ≤ 57 := by
  intro fuel
  induction fuel with
  | zero =>
    intro n h
    omega
  | succ fuel ih =>
    intro n h c hc
    by_cases hn : n < 10
    · rw [toDecimalAux, if_pos hn] at hc
      simp at hc
      subst hc
      rw [digit_toNat n hn]
      omega
    · rw [toDecimalAux, if_neg hn] at hc
      rcases List.mem_append.mp hc with h1 | h2
      · exact ih (n / 10) (by omega) c h1
      · simp at h2
        subst h2
        rw [digit_toNat _ (Nat.mod_lt _ (by omega))]
        omega

theorem toDecimal_digits (n : Nat) : ∀ c ∈ toDecimal n, 48 ≤ c.toNat ∧ c.toNat ≤ 57 :=
  toDecimalAux_digits (n + 1) n (Nat.lt_succ_self n)

theorem toDecimal_ne_nil (n : Nat) : toDecimal n ≠ [] := by
  rw [toDecimal, toDecimalAux]
  split <;> simp

theorem parseDecimalAux_append (acc : Nat) (l1 l2 : List Char) :
    parseDecimalAux acc (l1 ++ l2) =
      (parseDecimalAux acc l1).bind (fun a => parseDecimalAux a l2) := by
  induction l1 generalizing acc with
  | nil => simp [parseDecimalAux]
  | cons c cs ih =>
    simp only [List.cons_append, parseDecimalAux]
    by_cases hc : isDigit c
    · simp [hc, ih]
    · simp [hc]

theorem isDigit_digitChar : ∀ d, d < 10 → isDigit (Char.ofNat (48 + d)) = true := by decide

theorem parseDecimalAux_toDecimalAux :
    ∀ fuel n, n < fuel → ∀ acc,
      parseDecimalAux acc (toDecimalAux fuel n) =
        some (acc * 10 ^ (toDecimalAux fuel n).length + n) := by
  intro fuel
  induction fuel with
  | zero =>
    intro n h
    omega
  | succ fuel ih =>
    intro n h acc
    by_cases hn : n < 10
    · rw [toDecimalAux, if_pos hn]
      simp [parseDecimalAux, isDigit_digitChar n hn, digit_toNat n hn, pow_one]
    · rw [toDecimalAux, if_neg hn]
      rw [parseDecimalAux_append, ih (n / 10) (by omega) acc]
      have hd : n % 10 < 10 := Nat.mod_lt _ (by omega)
      simp only [Option.some_bind, Option.bind_some, parseDecimalAux,
        isDigit_digitChar _ hd, if_true, digit_toNat _ hd]
      have hlen : (toDecimalAux fuel (n / 10) ++ [Char.ofNat (48 + n % 10)]).length =
          (toDecimalAux fuel (n / 10)).length + 1 := by simp
      rw [hlen]
      congr 1
      have h48 : 48 + n % 10 - 48 = n % 10 := by omega
      calc (acc * 10 ^ (toDecimalAux fuel (n / 10)).length + n / 10) * 10 +
            (48 + n % 10 - 48)
          = acc * (10 ^ (toDecimalAux fuel (n / 10)).length * 10) +
            (10 * (n / 10) + n % 10) := by
            rw [h48]; ring
        _ = acc * 10 ^ ((toDecimalAux fuel (n / 10)).length + 1) + n := by
            rw [Nat.div_add_mod, ← pow_succ]

theorem parseDecimal_toDecimal (n : Nat) : parseDecimal? (toDecimal n) = some n := by
  cases htd : toDecimal n with
  | nil => exact absurd htd (toDecimal_ne_nil n)
  | cons c cs =>
    show parseDecimalAux 0 (c :: cs) = some n
    rw [← htd]
    show parseDecimalAux 0 (toDecimalAux (n + 1) n) = some n
    rw [parseDecimalAux_toDecimalAux (n + 1) n (Nat.lt_succ_self n) 0]
    simp

/-! ### Lemmas about splitDash -/

theorem splitDash_no_dash (l : List Char) (h : '-' ∉ l) : splitDash l = [l] := by
  induction l with
  | nil => rfl
  | cons c cs ih =>
    have hc : ¬(c = '-') := fun e => h (e ▸ List.mem_cons_self c cs)
    have hcs : '-' ∉ cs := fun hm => h (List.mem_cons_of_mem c hm)
    simp [splitDash, hc, ih hcs]

theorem splitDash_append (a b : List Char) (h : '-' ∉ a) :
    splitDash (a ++ '-' :: b) = a :: splitDash b := by
  induction a with
  | nil => simp [splitDash]
  | cons c cs ih =>
    have hc : ¬(c = '-') := fun e => h (e ▸ List.mem_cons_self c cs)
    have hcs : '-' ∉ cs := fun hm => h (List.mem_cons_of_mem c hm)
    simp [splitDash, hc, ih hcs]

theorem toDecimal_no_dash (n : Nat) : '-' ∉ toDecimal n := by
  intro hm
  have h1 := toDecimal_digits n '-' hm
  have h2 : Char.toNat '-' = 45 := by decide
  rw [h2] at h1
  omega

theorem toDecimal_ascii (n : Nat) : ∀ c ∈ toDecimal n, c.toNat < 128 := by
  intro c hc
  have := toDecimal_digits n c hc
  omega

/-! ### Token payload resolution lemmas -/

theorem linkPayload_ascii (m : Nat) (loc : Locator) :
    ∀ c ∈ linkPayload m loc, c.toNat < 128 := by
  intro c hc
  cases loc with
  | single i =>
    simp only [linkPayload, List.mem_append, List.mem_cons, List.not_mem_nil,
      or_false] at hc
    rcases hc with (rfl | rfl | rfl | rfl) | hc
    · decide
    · decide
    · decide
    · decide
    · exact toDecimal_ascii _ c hc
  | range a b =>
    simp only [linkPayload, List.append_assoc, List.mem_append, List.mem_cons,
      List.not_mem_nil, or_false] at hc
    rcases hc with (rfl | rfl | rfl | rfl) | hc | rfl | hc
    · decide
    · decide
    · decide
    · decide
    · exact toDecimal_ascii _ c hc
    · decide
    · exact toDecimal_ascii _ c hc

theorem splitDash_payload_single (m i : Nat) :
    splitDash (linkPayload m (.single i)) = [['g', 'e', 't'], toDecimal (i * m)] := by
  have h1 : linkPayload m (.single i) = ['g', 'e', 't'] ++ '-' :: toDecimal (i * m) := by
    simp [linkPayload]
  rw [h1, splitDash_append _ _ (by decide), splitDash_no_dash _ (toDecimal_no_dash _)]

theorem splitDash_payload_range (m a b : Nat) :
    splitDash (linkPayload m (.range a b)) =
      [['g', 'e', 't'], toDecimal (a * m), toDecimal (b * m)] := by
  have h1 : linkPayload m (.range a b) =
      ['g', 'e', 't'] ++ '-' :: (toDecimal (a * m) ++ '-' :: toDecimal (b * m)) := by
    simp [linkPayload]
  rw [h1, splitDash_append _ _ (by decide),
    splitDash_append _ _ (toDecimal_no_dash _),
    splitDash_no_dash _ (toDecimal_no_dash _)]

theorem log2Aux_le : ∀ fuel n k, n < 2 ^ (k + 1) → log2Aux fuel n ≤ k := by
  intro fuel
  induction fuel with
  | zero =>
    intro n k _
    simp [log2Aux]
  | succ fuel ih =>
    intro n k h
    rw [log2Aux]
    split
    case isTrue h2 =>
      have hk : 1 ≤ k := by
        by_contra hk0
        have hk1 : k = 0 := by omega
        subst hk1
        simp at h
        omega
      have hpow : (2 : Nat) ^ (k + 1) = 2 * 2 ^ k := by
        rw [pow_succ]
        ring
      have hpow2 : (2 : Nat) ^ (k - 1 + 1) = 2 ^ k := by
        congr 1
        omega
      have hdiv : n / 2 < 2 ^ (k - 1 + 1) := by
        rw [hpow2]
        omega
      have := ih (n / 2) (k - 1) hdiv
      omega
    case isFalse => omega

theorem natLog2_le (n k : Nat) (h : n < 2 ^ (k + 1)) : natLog2 n ≤ k :=
  log2Aux_le n n k h

/-- For an exact integer quotient below 2 ^ 53 the float-mediated division
int((i * m) / m) returns i: the exact rational is the integer i, which is
exactly representable as a double, so the correctly-rounded double is i and
the truncation returns it. -/
theorem pyTrueDivInt_exact (m i : Nat) (hm : 0 < m) (hi : 0 < i)
    (hlt : i < 2 ^ 53) :
    pyTrueDivInt (i * m) m = some i := by
  have hm0 : ¬(m = 0) := by omega
  have hx1 : 0 < i * m := Nat.mul_pos hi hm
  have hx0 : ¬(i * m = 0) := by omega
  have hxm : m ≤ i * m := Nat.le_mul_of_pos_left m hi
  have hdiv : i * m / m = i := Nat.mul_div_cancel i hm
  have hE : natLog2 i ≤ 52 := natLog2_le i 52 hlt
  unfold pyTrueDivInt
  rw [if_neg hm0, if_neg hx0, if_pos hxm, hdiv]
  by_cases h52 : 52 ≤ natLog2 i
  · rw [if_pos h52]
    have hEeq : natLog2 i - 52 = 0 := by omega
    rw [hEeq]
    simp only [pow_zero, mul_one]
    rw [hdiv, Nat.mul_mod_left]
    unfold roundHalfEven
    have h2r : 2 * 0 < m := by omega
    rw [if_pos h2r]
    have hov : ¬((2 : Nat) ^ 1024 ≤ i) := by
      have hle : (2 : Nat) ^ 53 ≤ 2 ^ 1024 := Nat.pow_le_pow_right (by omega) (by omega)
      omega
    rw [if_neg hov]
  · rw [if_neg h52]
    dsimp only
    have hN : i * m * 2 ^ (52 - natLog2 i) / m = i * 2 ^ (52 - natLog2 i) := by
      rw [mul_right_comm]
      exact Nat.mul_div_cancel _ hm
    have hNr : i * m * 2 ^ (52 - natLog2 i) % m = 0 := by
      rw [mul_right_comm]
      exact Nat.mul_mod_left _ _
    rw [hN, hNr]
    unfold roundHalfEven
    have h2r : 2 * 0 < m := by omega
    rw [if_pos h2r]
    have hpos : 0 < (2 : Nat) ^ (52 - natLog2 i) := Nat.pos_pow_of_pos _ (by omega)
    rw [Nat.mul_div_cancel _ hpos]

theorem resolve_single_payload (m i : Nat) (hm : 0 < m) (hi : 0 < i)
    (hlt : i < 2 ^ 53) (t : List Char)
    (hdt : decode_string t = some (linkPayload m (.single i))) :
    start_link_resolution m t = .deliver [i] := by
  unfold start_link_resolution
  rw [hdt]
  simp only [splitDash_payload_single]
  norm_num [List.getD, parseDecimal_toDecimal, pyTrueDivInt_exact m i hm hi hlt]

theorem resolve_range_payload (m a b : Nat) (hm : 0 < m) (ha : 0 < a) (hb : 0 < b)
    (hal : a < 2 ^ 53) (hbl : b < 2 ^ 53) (t : List Char)
    (hdt : decode_string t = some (linkPayload m (.range a b))) :
    start_link_resolution m t =
      .deliver (if a ≤ b then List.range' a (b + 1 - a)
                else (List.range' b (a + 1 - b)).reverse) := by
  unfold start_link_resolution
  rw [hdt]
  simp only [splitDash_payload_range]
  norm_num [List.getD, parseDecimal_toDecimal, pyTrueDivInt_exact m a hm ha hal,
    pyTrueDivInt_exact m b hm hb hbl]

theorem range'_asc_head (a b : Nat) (hab : a ≤ b) :
    (List.range' a (b + 1 - a)).head? = some a := by
  rw [List.head?_range']
  simp
  omega

theorem range'_asc_last (a b : Nat) (hab : a ≤ b) :
    (List.range' a (b + 1 - a)).getLast? = some b := by
  have h1 : b + 1 - a = (b - a) + 1 := by omega
  rw [h1, List.range'_concat]
  rw [List.getLast?_concat]
  congr 1
  omega

set_option maxRecDepth 8000 in
/-- C1 counterexample: the round-trip claimed for all positive identifiers
fails at id = 2 ^ 53 + 1 with ChannelMagnitude 1: the encoded link token
resolves to the neighboring id 2 ^ 53, because int(int(field) / m) performs
float true division whose correctly-rounded double of 9007199254740993 is
9007199254740992 (round half to even at the first unrepresentable odd
integer). -/
theorem c1_counterexample :
    encode_string (linkPayload 1 (.single 9007199254740993)) =
      some ['Z', '2', 'V', '0', 'L', 'T', 'k', 'w', 'M', 'D', 'c', 'x', 'O', 'T',
        'k', 'y', 'N', 'T', 'Q', '3', 'N', 'D', 'A', '5', 'O', 'T', 'M'] ∧
    start_link_resolution 1
      ['Z', '2', 'V', '0', 'L', 'T', 'k', 'w', 'M', 'D', 'c', 'x', 'O', 'T',
        'k', 'y', 'N', 'T', 'Q', '3', 'N', 'D', 'A', '5', 'O', 'T', 'M'] =
      .deliver [9007199254740992] ∧
    StartOutcome.deliver [9007199254740992] ≠ .deliver [9007199254740993] := by
  refine ⟨by decide, by decide, by decide⟩

/-- C1 (amended): for every valid locator (Single id, or Range a b) whose
identifiers are positive and below 2 ^ 53, and a fixed positive
ChannelMagnitude m, encoding the locator payload as a link token and running
start_command token resolution recovers the same locator: a single id
round-trips to the one-element id list, and a range round-trips to the id
sequence whose endpoints are exactly a and b, ascending when a ≤ b and
traversed descending when a > b.  Identifiers at or beyond 2 ^ 53 can be
altered by the float-mediated division and do not round-trip. -/
theorem c1_token_roundtrip (m id a b : Nat) (hm : 0 < m) (hid : 0 < id)
    (ha : 0 < a) (hb : 0 < b) (hidl : id < 2 ^ 53) (hal : a < 2 ^ 53)
    (hbl : b < 2 ^ 53) :
    (∃ t, encode_string (linkPayload m (.single id)) = some t ∧
       start_link_resolution m t = .deliver [id]) ∧
    (∃ t, encode_string (linkPayload m (.range a b)) = some t ∧
       ∃ ids, start_link_resolution m t = .deliver ids ∧
         ids.head? = some a ∧ ids.getLast? = some b ∧
         (a ≤ b → ids = List.range' a (b + 1 - a)) ∧
         (b < a → ids = (List.range' b (a + 1 - b)).reverse)) := by
  constructor
  · obtain ⟨t, het, hdt⟩ := decode_encode_ascii _ (linkPayload_ascii m (.single id))
    exact ⟨t, het, resolve_single_payload m id hm hid hidl t hdt⟩
  · obtain ⟨t, het, hdt⟩ := decode_encode_ascii _ (linkPayload_ascii m (.range a b))
    refine ⟨t, het, ?_⟩
    by_cases hab : a ≤ b
    · refine ⟨List.range' a (b + 1 - a), ?_, ?_, ?_, fun _ => rfl, fun hba => absurd hab (by omega)⟩
      · rw [resolve_range_payload m a b hm ha hb hal hbl t hdt, if_pos hab]
      · exact range'_asc_head a b hab
      · exact range'_asc_last a b hab
    · have hba : b < a := by omega
      refine ⟨(List.range' b (a + 1 - b)).reverse, ?_, ?_, ?_,
        fun h => absurd h hab, fun _ => rfl⟩
      · rw [resolve_range_payload m a b hm ha hb hal hbl t hdt, if_neg hab]
      · rw [List.head?_reverse]
        exact range'_asc_last b a (by omega)
      · rw [List.getLast?_reverse]
        exact range'_asc_head b a (by omega)

/-- Witness for C1 (amended) at m = 5, id = 7, and the descending range
a = 9, b = 3. -/
theorem c1_token_roundtrip_witness :
    (0 : Nat) < 5 ∧ (0 : Nat) < 7 ∧ (0 : Nat) < 9 ∧ (0 : Nat) < 3 ∧
    (7 : Nat) < 2 ^ 53 ∧ (9 : Nat) < 2 ^ 53 ∧ (3 : Nat) < 2 ^ 53 ∧
    ((∃ t, encode_string (linkPayload 5 (.single 7)) = some t ∧
       start_link_resolution 5 t = .deliver [7]) ∧
     (∃ t, encode_string (linkPayload 5 (.range 9 3)) = some t ∧
       ∃ ids, start_link_resolution 5 t = .deliver ids ∧
         ids.head? = some 9 ∧ ids.getLast? = some 3 ∧
         (9 ≤ 3 → ids = List.range' 9 (3 + 1 - 9)) ∧
         (3 < 9 → ids = (List.range' 3 (9 + 1 - 3)).reverse))) :=
  ⟨by decide, by decide, by decide, by decide, by decide, by decide, by decide,
    c1_token_roundtrip 5 7 9 3 (by decide) (by decide) (by decide) (by decide)
      (by decide) (by decide) (by decide)⟩

/-- C3: the claim is right and the code is wrong.  Every delivery reaches the
auto-delete phase by reading db.get_auto_delete_time(), but DatabaseManager
defines no such method (the timer accessor it does define is get_del_timer,
with the documented first-startup default of 600 seconds), so the attribute
lookup raises and the outer handler replies with a generic error: whatever
value an admin stored, no re-read succeeds and no deletion is ever
scheduled. -/
theorem c3_timer_read (stored : Option Nat) :
    start_autodelete_phase databaseManagerMethods stored = .errorReply ∧
    "get_del_timer" ∈ databaseManagerMethods ∧
    get_del_timer none = 600 := by
  refine ⟨?_, by decide, rfl⟩
  unfold start_autodelete_phase
  have h : "get_auto_delete_time" ∉ databaseManagerMethods := by decide
  simp [h]

/-- C4 counterexample: the claim that in every mode a rate-limit signal is
followed by exactly one retry of the same attempt, recorded by the retry
outcome, is false in auto_delete mode: a recipient whose first copy raises
FloodWait and whose every later call would fail is recorded as delivered,
because the FloodWait retry block re-sends only for normal and pin and then
unconditionally counts success. -/
theorem c4_counterexample :
    processUser (.autoDelete 60)
        (fun n => if n = 0 then .exn (.floodWait 5) else .exn .userIsBlocked) =
      (.delivered, false) ∧
    processUserSpec (.autoDelete 60)
        (fun n => if n = 0 then .exn (.floodWait 5) else .exn .userIsBlocked) =
      (.failed, false) ∧
    ((Outcome.delivered, false) ≠ ((Outcome.failed, false) : Outcome × Bool)) :=
  ⟨rfl, rfl, by decide⟩

/-- C4 (amended): per-recipient outcome classification of
send_broadcast_chunk, in except-chain order: blocked removes the recipient
and records blocked; deactivated removes and records deactivated; any other
non-rate-limit error records failed with the recipient retained; a
rate-limit in normal or pin mode is followed by exactly one retry of the
same attempt recorded by its outcome, while in auto_delete mode the handler
performs no retry call and unconditionally records the recipient as
delivered. -/
theorem c4_classification (t : BType) (s : Nat → CallResult) :
    ((tryMain t s).1 = none → processUser t s = (.delivered, false)) ∧
    (∀ i, tryMain t s = (some .userIsBlocked, i) →
      processUser t s = (.blocked, true)) ∧
    (∀ i, tryMain t s = (some .inputUserDeactivated, i) →
      processUser t s = (.deactivated, true)) ∧
    (∀ i, tryMain t s = (some .other, i) → processUser t s = (.failed, false)) ∧
    (∀ w i, tryMain t s = (some (.floodWait w), i) →
      processUser t s =
        match t with
        | .autoDelete _ => (.delivered, false)
        | _ => if (tryMain t (fun n => s (i + n))).1 = none
               then (.delivered, false) else (.failed, false)) := by
  refine ⟨?_, ?_, ?_, ?_, ?_⟩
  · intro h
    unfold processUser
    rcases htm : tryMain t s with ⟨e, j⟩
    rw [htm] at h
    simp at h
    subst h
    rfl
  · intro i h
    unfold processUser
    rw [h]
  · intro i h
    unfold processUser
    rw [h]
  · intro i h
    unfold processUser
    rw [h]
  · intro w i h
    unfold processUser
    rw [h]
    cases t with
    | normal =>
      show (if retryAfterFlood .normal s i then _ else _) = _
      unfold retryAfterFlood tryMain
      cases hsi : s i <;> simp [hsi]
    | pin =>
      show (if retryAfterFlood .pin s i then _ else _) = _
      unfold retryAfterFlood tryMain
      cases hsi : s i with
      | ok =>
        cases hsi1 : s (i + 1) <;> simp [hsi, hsi1]
      | exn e =>
        simp [hsi]
    | autoDelete d =>
      show (if retryAfterFlood (.autoDelete d) s i then _ else _) = _
      unfold retryAfterFlood
      simp

/-- Witness for C4 (amended): a normal-mode recipient that is rate limited
on every call ends up recorded as failed after its single retry. -/
theorem c4_classification_witness :
    processUser .normal (fun _ => .exn (.floodWait 3)) = (.failed, false) := by
  have h := (c4_classification .normal (fun _ => .exn (.floodWait 3))).2.2.2.2 3 1 rfl
  exact h.trans (by decide)

theorem send_chunk_counters_sum (t : BType) (chunk : List (Nat × (Nat → CallResult))) :
    (send_broadcast_chunk t chunk).1.success + (send_broadcast_chunk t chunk).1.blocked +
      (send_broadcast_chunk t chunk).1.deleted + (send_broadcast_chunk t chunk).1.failed =
      chunk.length := by
  induction chunk with
  | nil => rfl
  | cons u rest ih =>
    obtain ⟨uid, s⟩ := u
    rcases hsc : send_broadcast_chunk t rest with ⟨c, removed⟩
    rw [hsc] at ih
    dsimp only at ih
    rcases hpu : processUser t s with ⟨o, rem⟩
    simp only [send_broadcast_chunk, hsc, hpu]
    cases o <;> simp <;> omega

/-- C10: every recipient in a chunk is assigned exactly one outcome, so the
four counters returned by send_broadcast_chunk sum to the chunk size, in
every mode. -/
theorem c10_counters_sum (t : BType) (chunk : List (Nat × (Nat → CallResult))) :
    (send_broadcast_chunk t chunk).1.success + (send_broadcast_chunk t chunk).1.blocked +
      (send_broadcast_chunk t chunk).1.deleted + (send_broadcast_chunk t chunk).1.failed =
      chunk.length :=
  send_chunk_counters_sum t chunk

theorem chunkListAux_flatten (fuel : Nat) :
    ∀ (n : Nat) (l : List α), l.length ≤ fuel → (chunkListAux fuel n l).flatten = l := by
  induction fuel with
  | zero =>
    intro n l h
    cases l with
    | nil => rfl
    | cons x xs => simp at h
  | succ fuel ih =>
    intro n l h
    cases l with
    | nil => rfl
    | cons x xs =>
      simp only [chunkListAux, List.flatten_cons]
      rw [ih n (xs.drop (n - 1)) (by simp at h ⊢; omega)]
      simp [List.take_append_drop]

theorem chunkList_flatten (n : Nat) (l : List α) : (chunkList n l).flatten = l :=
  chunkListAux_flatten l.length n l le_rfl

theorem chunkList_length_sum (n : Nat) (l : List α) :
    ((chunkList n l).map List.length).sum = l.length := by
  have h := congrArg List.length (chunkList_flatten n l)
  rwa [List.length_flatten] at h

theorem broadcast_fold_sum (cs : List (List (Nat × (Nat → CallResult)))) :
    ∀ a : ChunkCounts,
      (cs.foldl broadcastStep a).success + (cs.foldl broadcastStep a).blocked +
        (cs.foldl broadcastStep a).deleted + (cs.foldl broadcastStep a).failed =
      a.success + a.blocked + a.deleted + a.failed + (cs.map List.length).sum := by
  induction cs with
  | nil => intro a; simp
  | cons chunk rest ih =>
    intro a
    rw [List.foldl_cons, ih (broadcastStep a chunk)]
    have hc := send_chunk_counters_sum .normal chunk
    simp only [broadcastStep, List.map_cons, List.sum_cons]
    omega

/-- C5: an empty user base makes broadcast_message abort with the distinct
empty-audience result before any chunk is processed, so the success ratio is
never formed with a zero denominator; a nonempty run always ends in a report
carrying the total, the four per-outcome counts summing to the total, and
the success ratio Delivered / total (as the percentage the code renders). -/
theorem c5_broadcast_report (users : List (Nat × (Nat → CallResult))) :
    (users.length = 0 → broadcast_message users = .noUsers) ∧
    (users.length ≠ 0 → ∃ s b d f, broadcast_message users =
        .report users.length s b d f ((s : ℚ) / (users.length : ℚ) * 100) ∧
        s + b + d + f = users.length) := by
  constructor
  · intro h
    unfold broadcast_message
    simp [h]
  · intro h
    unfold broadcast_message
    rcases hacc : (chunkList 100 users).foldl broadcastStep ⟨0, 0, 0, 0⟩ with ⟨s, b, d, f⟩
    refine ⟨s, b, d, f, ?_, ?_⟩
    · simp [h, hacc]
    · have hsum := broadcast_fold_sum (chunkList 100 users) ⟨0, 0, 0, 0⟩
      rw [hacc] at hsum
      simpa [chunkList_length_sum] using hsum

/-- Witness for C5: the empty user base aborts, and a singleton user base
with an always-delivering recipient reports a total of one. -/
theorem c5_broadcast_report_witness :
    broadcast_message [] = .noUsers ∧
    (∃ s b d f, broadcast_message [(1, fun _ => .ok)] =
        .report 1 s b d f ((s : ℚ) / ((1 : Nat) : ℚ) * 100) ∧ s + b + d + f = 1) := by
  constructor
  · exact (c5_broadcast_report []).1 rfl
  · have h := (c5_broadcast_report [(1, fun _ => .ok)]).2 (by simp)
    simpa using h

/-- C6: a scheduled expiry always runs to completion: it sleeps exactly the
configured delay, attempts deletion of every message of the delivered batch
in order regardless of per-message failures, and then edits the notification
exactly once, reporting exactly the number of messages whose deletion
succeeded. -/
theorem c6_expiry_completion (ids : List Nat) (delay : Nat) (deleteOk : Nat → Bool) :
    schedule_auto_delete (ids.map some) delay deleteOk =
      ⟨[delay], ids, [(ids.filter deleteOk).length]⟩ := by
  have h : autoDeleteLoop deleteOk (ids.map some) = ((ids.filter deleteOk).length, ids) := by
    induction ids with
    | nil => rfl
    | cons i rest ih =>
      simp only [List.map_cons, autoDeleteLoop, ih]
      by_cases hd : deleteOk i <;> simp [List.filter_cons, hd]
  unfold schedule_auto_delete
  rw [h]

theorem gmbLoop_eq_fetchAllSpec (store : Nat → List Nat → FetchResult)
    (bs : List (List Nat)) : ∀ k, gmbLoop store bs k = fetchAllSpec store bs k := by
  induction bs with
  | nil => intro k; rfl
  | cons b rest ih =>
    intro k
    simp only [gmbLoop, fetchAllSpec, fetchBatchSpec]
    cases h0 : store k b with
    | ok msgs => simp [ih]
    | floodWait w =>
      cases h1 : store (k + 1) b with
      | ok msgs => simp [ih]
      | floodWait w2 => simp [ih]
      | err => simp [ih]
    | err => simp [ih]

/-- C7: the retriever handles each batch independently: a rate-limit signal
with wait w suspends w seconds and retries that batch exactly once (two
store calls, one recorded sleep); a failure of that retry, or any other
fetch error, contributes no messages for that batch while every sibling
batch is still processed; the overall result is the concatenation of the
successful batch fetches.  The loop of get_messages_batch is exactly the
composition of the independent per-batch resolution fetchBatchSpec. -/
theorem c7_retriever_rate_limit (store : Nat → List Nat → FetchResult) (ids : List Nat) :
    get_messages_batch store ids = fetchAllSpec store (chunkList 100 ids) 0 := by
  unfold get_messages_batch
  by_cases h : ids = []
  · subst h
    simp [chunkList, chunkListAux, fetchAllSpec]
  · simp only [if_neg h]
    exact gmbLoop_eq_fetchAllSpec store (chunkList 100 ids) 0

theorem gmbLoop_calls_ok (store : Nat → List Nat → FetchResult)
    (h : ∀ k b, ∃ ms, store k b = .ok ms) (bs : List (List Nat)) :
    ∀ k, (gmbLoop store bs k).2.calls = bs := by
  induction bs with
  | nil => intro k; rfl
  | cons b rest ih =>
    intro k
    obtain ⟨ms, hms⟩ := h k b
    simp only [gmbLoop, hms]
    rcases hl : gmbLoop store rest (k + 1) with ⟨ms2, tr⟩
    have := ih (k + 1)
    rw [hl] at this
    simpa using this

/-- C8: when the store answers every call, the retriever issues exactly one
fetch per consecutive batch of 100 identifiers, in input order: the
sequence of store calls is exactly the 100-chunking of the input. -/
theorem c8_batching (store : Nat → List Nat → FetchResult)
    (h : ∀ k b, ∃ ms, store k b = .ok ms) (ids : List Nat) :
    (get_messages_batch store ids).2.calls = chunkList 100 ids := by
  unfold get_messages_batch
  by_cases hid : ids = []
  · subst hid
    simp [chunkList, chunkListAux]
  · simp only [if_neg hid]
    exact gmbLoop_calls_ok store h (chunkList 100 ids) 0

/-- Witness for C8: with an always-answering store and 250 identifiers,
exactly three store calls are made, of sizes 100, 100 and 50. -/
theorem c8_batching_witness :
    ((get_messages_batch (fun _ b => .ok b) (List.range 250)).2.calls.map
      List.length) = [100, 100, 50] := by
  rw [c8_batching (fun _ b => .ok b) (fun k b => ⟨b, rfl⟩) (List.range 250)]
  set_option maxRecDepth 4000 in rfl

/-- C9: for every content item sent by the delivery loop, the copy call
carries the configured protect-content flag; when a caption template is
configured (present and non-empty) and the item is a document, the caption
is the template interpolated with the previous caption (empty when absent)
and the file name; otherwise a present original caption is passed through
unchanged. -/
theorem c9_caption_protection (tmpl : Option String)
    (fmt : String → String → String → String) (pc : Bool) (msgs : List Content) :
    (∀ call ∈ deliverAll tmpl fmt pc msgs, call.protect = pc) ∧
    (∀ msg ∈ msgs, ∀ tp fn, tmpl = some tp → tp ≠ "" → msg.document = some fn →
      deliveredCaption tmpl fmt msg = fmt tp (msg.caption.getD "") fn) ∧
    (∀ msg ∈ msgs, captionConfigured tmpl = false ∨ msg.document = none →
      ∀ c, msg.caption = some c → deliveredCaption tmpl fmt msg = c) := by
  refine ⟨?_, ?_, ?_⟩
  · intro call hc
    rcases List.mem_map.mp hc with ⟨m, _, rfl⟩
    rfl
  · intro msg _ tp fn htp hne hdoc
    subst htp
    have hemp : tp.isEmpty = false := by
      cases hic : tp.isEmpty
      · rfl
      · exact absurd ((String.isEmpty_iff tp).mp hic) hne
    have hcfg : captionConfigured (some tp) = true := by
      simp [captionConfigured, hemp]
    unfold deliveredCaption
    rw [hcfg, hdoc]
    simp only [Option.isSome_some, Bool.and_self, if_true]
    cases msg.caption <;> rfl
  · intro msg _ hcond c hc
    unfold deliveredCaption
    rcases hcond with hcfg | hdoc
    · rw [hcfg]
      simp [hc]
    · rw [hdoc, hc]
      simp

/-- Witness for C9 at a concrete template, document and caption. -/
theorem c9_caption_protection_witness :
    deliveredCaption (some "T") (fun t p f => t ++ p ++ f)
      ⟨some "cap", some "file"⟩ = "Tcapfile" := by
  have h := (c9_caption_protection (some "T") (fun t p f => t ++ p ++ f) true
    [⟨some "cap", some "file"⟩]).2.1 ⟨some "cap", some "file"⟩ (by simp)
    "T" "file" rfl (by decide) rfl
  exact h.trans (by decide)

end Filestorebot
